import Mathlib

/-!
Verification of the library index subsystem of ssce-tauri
(src/src-tauri/src/main.rs), a SQLite + FTS5 backed catalog of documents.

The embedding models:
- the `files` table and the `files_fts` shadow index, together with the
  three triggers (`files_ai`, `files_ad`, `files_au`) that keep them in sync;
- the Tauri commands `db_upsert_file`, `db_get_recent_files`,
  `db_search_files`, `db_remove_file`, `db_update_last_opened`,
  `db_rebuild_from_library`;
- the document-envelope JSON extraction performed by the reconciliation
  scanner.

SQL semantics are made explicit: `ORDER BY ... DESC` with SQLite's
NULLs-last-in-DESC convention, `LIMIT` with SQLite's negative-means-unbounded
rule, `last_insert_rowid` (unchanged when an upsert takes the DO UPDATE
branch), and the FTS5 prefix-query evaluation for plain alphanumeric tokens.
String comparison is byte-order lexicographic, as SQLite's BINARY collation
on UTF-8 text (codepoint order equals byte order for valid UTF-8).
-/

namespace SSCE

/-! ## Character-list utilities

SQLite compares TEXT values with memcmp on UTF-8 bytes; on valid UTF-8 this
equals lexicographic codepoint order, which `charListLe` implements. -/

/-- Lexicographic (byte/codepoint) order on character lists, as SQLite's
BINARY collation compares TEXT values. -/
def charListLe : List Char → List Char → Bool
  | [], _ => true
  | _ :: _, [] => false
  | a :: as, b :: bs =>
    if a.toNat < b.toNat then true
    else if b.toNat < a.toNat then false
    else charListLe as bs

/-- String comparison used for the `modified >= ?` / `modified <= ?` date
predicates and the `ORDER BY` clauses. -/
def strLe (a b : String) : Bool := charListLe a.data b.data

/-! ## Insertion sort

A structurally recursive sort modelling `ORDER BY`; `sortBy le` sorts so
that `le` holds between adjacent elements. -/

/-- Inserts an element into a sorted list. -/
def insertSorted (le : α → α → Bool) (a : α) : List α → List α
  | [] => [a]
  | b :: bs => if le a b then a :: b :: bs else b :: insertSorted le a bs

/-- Insertion sort used to model the SQL ORDER BY clauses. -/
def sortBy (le : α → α → Bool) : List α → List α
  | [] => []
  | a :: as => insertSorted le a (sortBy le as)

/-! ## Whitespace tokenization

`wordsBy sep` splits a character list at separator characters, dropping
empty pieces.  With `sep = Char.isWhitespace` it models Rust's
`str::split_whitespace` (used to build the FTS5 match string); with
`sep = fun c => !c.isAlphanum` it models the FTS5 unicode61 tokenizer's
segmentation of field text into terms. -/

/-- Accumulator-based splitter; `acc` holds the current word reversed. -/
def wordsByAux (sep : Char → Bool) : List Char → List Char → List (List Char)
  | [], [] => []
  | [], acc => [acc.reverse]
  | c :: cs, acc =>
    if sep c then
      match acc with
      | [] => wordsByAux sep cs []
      | _ :: _ => acc.reverse :: wordsByAux sep cs []
    else wordsByAux sep cs (c :: acc)

/-- Splits a character list at separators, dropping empty pieces. -/
def wordsBy (sep : Char → Bool) (cs : List Char) : List (List Char) :=
  wordsByAux sep cs []

/-- The whitespace tokens of a string, modelling Rust `str::split_whitespace`. -/
def tokensOf (q : String) : List String :=
  (wordsBy Char.isWhitespace q.data).map String.mk

/-- Space-joining of a list of strings, modelling Rust `Vec::join(" ")`. -/
def joinSpace : List String → String
  | [] => ""
  | [w] => w
  | w :: x :: ws => w ++ " " ++ joinSpace (x :: ws)

/-- Character-level counterpart of `joinSpace`. -/
def joinSpaceCL : List (List Char) → List Char
  | [] => []
  | [w] => w
  | w :: x :: ws => w ++ ' ' :: joinSpaceCL (x :: ws)

/-! ## Data model

The `files` table schema (main.rs, `init_database`): surrogate integer
primary key `id`, `path TEXT UNIQUE NOT NULL`, plus metadata columns.
`files_fts` is the FTS5 shadow index projecting
`filename, title, summary, keywords`, keyed by `rowid = files.id`. -/

/-- A stored row of the `files` table. -/
structure Row where
  id : Nat
  path : String
  filename : String
  thumbnail : Option String
  title : Option String
  summary : Option String
  keywords : Option String
  modified : Option String
  last_opened : Option String
  snapshot_count : Int
deriving DecidableEq, Repr

/-- The `LibraryFile` record passed to `db_upsert_file` (its `id` field is
never bound in the SQL, so the store ignores it). -/
structure LibraryFile where
  id : Option Nat
  path : String
  filename : String
  thumbnail : Option String
  title : Option String
  summary : Option String
  keywords : Option String
  modified : Option String
  last_opened : Option String
  snapshot_count : Int
deriving DecidableEq, Repr

/-- An entry of the `files_fts` shadow index. -/
structure FtsEntry where
  rowid : Nat
  filename : String
  title : Option String
  summary : Option String
  keywords : Option String
deriving DecidableEq, Repr

/-- The store: `files` rows, `files_fts` entries, and the connection's
`last_insert_rowid` value (SQLite updates it only when an INSERT actually
inserts a row; an upsert that takes the DO UPDATE branch leaves it stale). -/
structure DB where
  rows : List Row
  fts : List FtsEntry
  lastInsertRowid : Nat
deriving DecidableEq, Repr

/-- The shadow-index projection of a row, as written by the `files_ai` /
`files_au` triggers: `(id, filename, title, summary, keywords)`. -/
def ftsProj (r : Row) : FtsEntry :=
  { rowid := r.id, filename := r.filename, title := r.title,
    summary := r.summary, keywords := r.keywords }

/-- The largest rowid in use; SQLite assigns `max + 1` to the next insert
(the non-AUTOINCREMENT rule for INTEGER PRIMARY KEY). -/
def maxId (rows : List Row) : Nat := rows.foldr (fun r m => max r.id m) 0

/-- INSERT of a fresh row plus the `files_ai` trigger's shadow insert;
also updates `last_insert_rowid`. `mk` builds the row from the assigned id. -/
def insertRow (db : DB) (mk : Nat → Row) : DB :=
  let newId := maxId db.rows + 1
  let r := mk newId
  { rows := db.rows ++ [r], fts := db.fts ++ [ftsProj r], lastInsertRowid := newId }

/-- UPDATE of every row whose `path` equals `p` (the schema's UNIQUE
constraint means at most one in well-formed states) plus, for each updated
row, the `files_au` trigger: delete the old shadow entry by id, insert the
new projection. -/
def bulkUpdate (db : DB) (p : String) (upd : Row → Row) : DB :=
  let touched := db.rows.filter (fun r => r.path == p)
  { db with
    rows := db.rows.map (fun r => if r.path == p then upd r else r),
    fts := db.fts.filter (fun e => !(touched.any (fun r => r.id == e.rowid)))
             ++ touched.map (fun r => ftsProj (upd r)) }

/-- DELETE of every row satisfying `cond` plus, for each deleted row, the
`files_ad` trigger's shadow delete by id. -/
def bulkDelete (db : DB) (cond : Row → Bool) : DB :=
  let gone := db.rows.filter cond
  { db with
    rows := db.rows.filter (fun r => !(cond r)),
    fts := db.fts.filter (fun e => !(gone.any (fun r => r.id == e.rowid))) }

/-! ## Mutation commands -/

/-- Replacement of every non-key field by the upserted record's values, as
the `ON CONFLICT(path) DO UPDATE SET ...` clause of `db_upsert_file`. -/
def upsertFields (file : LibraryFile) (r : Row) : Row :=
  { r with filename := file.filename, thumbnail := file.thumbnail,
           title := file.title, summary := file.summary,
           keywords := file.keywords, modified := file.modified,
           last_opened := file.last_opened,
           snapshot_count := file.snapshot_count }

/-- The `db_upsert_file` command (main.rs lines 130-161): INSERT OR ON
CONFLICT(path) DO UPDATE, then return `conn.last_insert_rowid()`. -/
def db_upsert_file (db : DB) (file : LibraryFile) : DB × Nat :=
  let db' :=
    if db.rows.any (fun r => r.path == file.path) then
      bulkUpdate db file.path (upsertFields file)
    else
      insertRow db (fun newId =>
        { id := newId, path := file.path, filename := file.filename,
          thumbnail := file.thumbnail, title := file.title,
          summary := file.summary, keywords := file.keywords,
          modified := file.modified, last_opened := file.last_opened,
          snapshot_count := file.snapshot_count })
  (db', db'.lastInsertRowid)

/-- The `db_remove_file` command: `DELETE FROM files WHERE path = ?1`. -/
def db_remove_file (db : DB) (path : String) : DB :=
  bulkDelete db (fun r => r.path == path)

/-- The `db_update_last_opened` command:
`UPDATE files SET last_opened = ?1 WHERE path = ?2`. -/
def db_update_last_opened (db : DB) (path timestamp : String) : DB :=
  bulkUpdate db path (fun r => { r with last_opened := some timestamp })

/-! ## Query commands -/

/-- SQLite `LIMIT n`: a negative limit means no upper bound on the number
of returned rows. -/
def applyLimit (limit : Int) (xs : List α) : List α :=
  if limit < 0 then xs else xs.take limit.toNat

/-- Descending NULLs-last comparison on an optional TEXT column, as SQLite
orders `ORDER BY col DESC` (NULL sorts below every value). `descLe a b`
holds when `a` may precede `b` in the descending output. -/
def descLe (a b : Option String) : Bool :=
  match a, b with
  | _, none => true
  | none, some _ => false
  | some a, some b => strLe b a

/-- The `db_get_recent_files` command: rows with non-NULL `last_opened`,
ordered by `last_opened` descending, capped at `limit`. -/
def db_get_recent_files (db : DB) (limit : Int) : List Row :=
  applyLimit limit
    (sortBy (fun a b => descLe a.last_opened b.last_opened)
      (db.rows.filter (fun r => r.last_opened.isSome)))

/-- The parameters of `db_search_files`. -/
structure SearchParams where
  query : Option String
  from_date : Option String
  to_date : Option String
  limit : Option Int
deriving DecidableEq, Repr

/-- The optional date predicates `modified >= from_date` / `modified <= to_date`
(string comparison; a NULL `modified` fails a supplied predicate, per SQL
three-valued logic). -/
def dateOk (fromDate toDate : Option String) (modified : Option String) : Bool :=
  (match fromDate with
   | none => true
   | some f => match modified with
     | none => false
     | some m => strLe f m) &&
  (match toDate with
   | none => true
   | some t => match modified with
     | none => false
     | some m => strLe m t)

/-- The FTS5 match string built by `db_search_files`: whitespace tokens of
the query, each suffixed with a wildcard, joined by spaces. -/
def fts_query_of (q : String) : String :=
  joinSpace ((tokensOf q).map (fun w => w ++ "*"))

/-- Terms the FTS5 unicode61 tokenizer extracts from a text value: maximal
alphanumeric runs, case-folded. -/
def ftsTermsCL (cs : List Char) : List (List Char) :=
  wordsBy (fun c => !c.isAlphanum) (cs.map Char.toLower)

/-- Terms of an optional column (a NULL column contributes no terms). -/
def ftsTermsOf : Option String → List (List Char)
  | none => []
  | some s => ftsTermsCL s.data

/-- All indexed terms of a shadow-index entry, over its four columns. -/
def entryTerms (e : FtsEntry) : List (List Char) :=
  ftsTermsCL e.filename.data ++ ftsTermsOf e.title ++
    ftsTermsOf e.summary ++ ftsTermsOf e.keywords

/-- Boolean list prefix test. -/
def isPrefixCL : List Char → List Char → Bool
  | [], _ => true
  | _ :: _, [] => false
  | a :: as, b :: bs => a == b && isPrefixCL as bs

/-- Evaluation of one piece of an FTS5 match string against an entry: a
trailing `*` makes it a prefix query on the case-folded stem, otherwise it
is an exact term match.  This models FTS5 for plain tokens; operator and
phrase syntax are out of scope. -/
def pieceMatch (e : FtsEntry) (piece : List Char) : Bool :=
  match piece.reverse with
  | '*' :: revStem =>
    (entryTerms e).any (fun t => isPrefixCL (revStem.reverse.map Char.toLower) t)
  | _ => (entryTerms e).contains (piece.map Char.toLower)

/-- Evaluation of a whole FTS5 match string: implicit conjunction of its
whitespace-separated pieces. -/
def ftsMatchEval (e : FtsEntry) (mq : String) : Bool :=
  (wordsBy Char.isWhitespace mq.data).all (fun piece => pieceMatch e piece)

/-- A query token matched as a prefix against some indexed term of an entry. -/
def tokenPrefixMatch (e : FtsEntry) (w : String) : Bool :=
  (entryTerms e).any (fun t => isPrefixCL (w.data.map Char.toLower) t)

/-- Mode selection of `db_search_files`: a present and non-blank query
takes the full-text path (`JOIN files_fts ... WHERE files_fts MATCH ?1`);
an absent or all-whitespace query takes the plain listing over `files`.
`query.trim().is_empty()` is embedded as `all Char.isWhitespace` over the
query's characters. -/
def searchBase (db : DB) (p : SearchParams) : List Row :=
  match p.query with
  | some q =>
    if q.data.all Char.isWhitespace then db.rows
    else
      db.rows.filter (fun r =>
        db.fts.any (fun e => e.rowid == r.id && ftsMatchEval e (fts_query_of q)))
  | none => db.rows

/-- The `db_search_files` command (main.rs lines 202-307): the selected
base, the optional date predicates, `ORDER BY modified DESC`, and
`LIMIT` with default 50. -/
def db_search_files (db : DB) (p : SearchParams) : List Row :=
  applyLimit (p.limit.getD 50)
    (sortBy (fun a b => descLe a.modified b.modified)
      ((searchBase db p).filter (fun r => dateOk p.from_date p.to_date r.modified)))

/-! ## Document envelopes

A small JSON value type with the accessors `serde_json` provides, enough
to mirror the envelope extraction in `db_rebuild_from_library`. -/

/-- JSON values, as parsed from a document envelope. -/
inductive JsonVal where
  | null : JsonVal
  | bool (b : Bool) : JsonVal
  | num (n : Int) : JsonVal
  | str (s : String) : JsonVal
  | arr (xs : List JsonVal) : JsonVal
  | obj (fields : List (String × JsonVal)) : JsonVal

/-- serde_json's `get(key)`: Some for the first matching key of an object,
None for missing keys and non-objects. -/
def JsonVal.get : JsonVal → String → Option JsonVal
  | .obj fields, key => (fields.find? (fun f => f.1 == key)).map (fun f => f.2)
  | _, _ => none

/-- serde_json's `as_str()`. -/
def JsonVal.as_str : JsonVal → Option String
  | .str s => some s
  | _ => none

/-- serde_json's `as_array()`. -/
def JsonVal.as_array : JsonVal → Option (List JsonVal)
  | .arr xs => some xs
  | _ => none

/-- The record the scanner derives from one parsed `.ssce` file. -/
structure ScanRecord where
  path : String
  filename : String
  thumbnail : Option String
  title : Option String
  summary : Option String
  keywords : Option String
  modified : Option String
  last_opened : Option String
  snapshot_count : Int
deriving DecidableEq, Repr

/-- Envelope extraction performed per candidate file by
`db_rebuild_from_library` (main.rs lines 362-400): optional `thumbnail`
string, `keywords` array flattened by joining its string elements with
single spaces, `frontMatter.{title, summary, modified}` strings,
`snapshots` array length, and `last_opened` seeded from `modified`. -/
def scanRecordOf (json : JsonVal) (path_str filename : String) : ScanRecord :=
  let thumbnail := (json.get "thumbnail").bind JsonVal.as_str
  let keywords := (json.get "keywords").bind (fun v =>
    v.as_array.map (fun arr => joinSpace (arr.filterMap JsonVal.as_str)))
  let front_matter := json.get "frontMatter"
  let title := (front_matter.bind (fun fm => fm.get "title")).bind JsonVal.as_str
  let summary := (front_matter.bind (fun fm => fm.get "summary")).bind JsonVal.as_str
  let modified := (front_matter.bind (fun fm => fm.get "modified")).bind JsonVal.as_str
  let snapshot_count :=
    (((json.get "snapshots").bind JsonVal.as_array).map
      (fun arr => (arr.length : Int))).getD 0
  { path := path_str, filename := filename, thumbnail := thumbnail,
    title := title, summary := summary, keywords := keywords,
    modified := modified, last_opened := modified,
    snapshot_count := snapshot_count }

/-- Field replacement of the scanner's DO UPDATE clause: every field is
replaced from the scanned record except `last_opened`, which becomes
`COALESCE(files.last_opened, excluded.last_opened)`. -/
def rebuildFields (rec : ScanRecord) (r : Row) : Row :=
  { r with filename := rec.filename, thumbnail := rec.thumbnail,
           title := rec.title, summary := rec.summary,
           keywords := rec.keywords, modified := rec.modified,
           last_opened := r.last_opened.or rec.last_opened,
           snapshot_count := rec.snapshot_count }

/-- The scanner's per-file upsert (main.rs lines 402-416): like
`db_upsert_file` except for the `last_opened` COALESCE on conflict. -/
def rebuildUpsertRow (db : DB) (rec : ScanRecord) : DB :=
  if db.rows.any (fun r => r.path == rec.path) then
    bulkUpdate db rec.path (rebuildFields rec)
  else
    insertRow db (fun newId =>
      { id := newId, path := rec.path, filename := rec.filename,
        thumbnail := rec.thumbnail, title := rec.title,
        summary := rec.summary, keywords := rec.keywords,
        modified := rec.modified, last_opened := rec.last_opened,
        snapshot_count := rec.snapshot_count })

/-! ## Filesystem model

A directory tree for the reconciliation walk.  A file entry records
whether its name has the `.ssce` extension and the combined outcome of
`fs::read_to_string` plus `serde_json::from_str` (an `Except` error models
either an I/O or a parse failure, carrying the error message). -/

/-- A filesystem entry under the library root. -/
inductive FSEntry where
  | dir (name : String) (children : List FSEntry) : FSEntry
  | file (name : String) (isSsce : Bool) (content : Except String JsonVal) : FSEntry

/-- The scanned filesystem: existence of the root, its entries, and paths
of files that exist elsewhere on disk (the prune pass checks
`Path::new(path).exists()` globally, not only under the root). -/
structure FS where
  rootPath : String
  rootExists : Bool
  root : List FSEntry
  extraFiles : List String

/-- The recursive walk of `db_rebuild_from_library` (main.rs `scan_dir`,
lines 347-423): directories are traversed, `.ssce` files are parsed and
upserted while counting, and the first read/parse failure aborts the walk,
returning the store as already mutated. -/
def scan_dir : String → List FSEntry → DB → Nat → DB × Except String Nat
  | _, [], db, count => (db, Except.ok count)
  | base, FSEntry.dir name children :: rest, db, count =>
    match scan_dir (base ++ "/" ++ name) children db count with
    | (db', Except.ok c') => scan_dir base rest db' c'
    | (db', Except.error e) => (db', Except.error e)
  | base, FSEntry.file name isSsce content :: rest, db, count =>
    if isSsce then
      match content with
      | Except.error e => (db, Except.error e)
      | Except.ok json =>
        scan_dir base rest
          (rebuildUpsertRow db (scanRecordOf json (base ++ "/" ++ name) name))
          (count + 1)
    else scan_dir base rest db count

/-- Every path that exists under a directory list (files and directories;
`Path::exists` is true for both). -/
def fsAllPaths : String → List FSEntry → List String
  | _, [] => []
  | base, FSEntry.dir name children :: rest =>
    (base ++ "/" ++ name) :: (fsAllPaths (base ++ "/" ++ name) children ++ fsAllPaths base rest)
  | base, FSEntry.file name _ _ :: rest =>
    (base ++ "/" ++ name) :: fsAllPaths base rest

/-- Existence test used by the prune pass. -/
def FS.pathExists (fs : FS) (p : String) : Bool :=
  p == fs.rootPath || (fsAllPaths fs.rootPath fs.root).contains p
    || fs.extraFiles.contains p

/-- `DELETE FROM files WHERE id = ?1` plus the `files_ad` trigger. -/
def deleteById (db : DB) (i : Nat) : DB :=
  bulkDelete db (fun r => r.id == i)

/-- The `db_rebuild_from_library` command (main.rs lines 336-450): fail if
the root does not exist, walk and upsert, then prune every stored row whose
path no longer exists on disk; return the number of files processed. -/
def db_rebuild_from_library (fs : FS) (db : DB) : DB × Except String Nat :=
  if !fs.rootExists then
    (db, Except.error ("Library path does not exist: " ++ fs.rootPath))
  else
    match scan_dir fs.rootPath fs.root db 0 with
    | (db', Except.error e) => (db', Except.error e)
    | (db', Except.ok count) =>
      let staleIds := (db'.rows.filter (fun r => !(fs.pathExists r.path))).map Row.id
      (staleIds.foldl (fun d i => deleteById d i) db', Except.ok count)

/-! ## Store invariant

Well-formedness: paths are unique (the `UNIQUE` constraint), ids are unique
(`INTEGER PRIMARY KEY`), and the shadow index is exactly the projection of
the rows, one entry per row keyed by the same id. -/

/-- The store invariant of spec section 3. -/
def wf (db : DB) : Prop :=
  (db.rows.map Row.path).Nodup ∧ (db.rows.map Row.id).Nodup ∧
    List.Perm db.fts (db.rows.map ftsProj)

instance (db : DB) : Decidable (wf db) := by
  unfold wf
  infer_instance

/-- The store as `init_database` creates it: both tables empty, no insert
performed yet on the connection. -/
def emptyDB : DB := { rows := [], fts := [], lastInsertRowid := 0 }

/-! ## Concrete sample data used by witnesses -/

/-- A sample stored row. -/
def sampleRow : Row :=
  { id := 1, path := "/lib/a.ssce", filename := "a.ssce", thumbnail := none,
    title := some "Alpha", summary := none, keywords := some "k1 k2",
    modified := some "2024-01-01", last_opened := none, snapshot_count := 0 }

/-- A sample store holding one row with its shadow entry. -/
def sampleDb : DB :=
  { rows := [sampleRow], fts := [ftsProj sampleRow], lastInsertRowid := 1 }

/-- A sample record for `db_upsert_file`. -/
def sampleFile : LibraryFile :=
  { id := none, path := "/lib/b.ssce", filename := "b.ssce", thumbnail := none,
    title := some "Beta", summary := none, keywords := none,
    modified := some "2024-02-01", last_opened := some "2024-02-02",
    snapshot_count := 1 }

/-- A sample scanner record. -/
def sampleRec : ScanRecord :=
  { path := "/lib/a.ssce", filename := "a.ssce", thumbnail := none,
    title := some "Alpha2", summary := none, keywords := none,
    modified := some "2024-03-01", last_opened := some "2024-03-01",
    snapshot_count := 0 }

/-- A sample parsed envelope with a title and a modified date. -/
def sampleJson : JsonVal :=
  JsonVal.obj [("frontMatter", JsonVal.obj [("title", JsonVal.str "Alpha"),
    ("modified", JsonVal.str "2024-01-01")])]

/-- A sample filesystem with one well-formed document under the root. -/
def sampleFs : FS :=
  { rootPath := "/lib", rootExists := true,
    root := [FSEntry.file "a.ssce" true (Except.ok sampleJson)],
    extraFiles := [] }

/-! ## Claim C2

`db_upsert_file` returns `conn.last_insert_rowid()`.  SQLite updates that
value only when an INSERT actually inserts a row; when the upsert takes the
`ON CONFLICT(path) DO UPDATE` branch no insert occurs and the value is left
over from whatever insert happened earlier on the connection. -/

/-- A second sample row at a different path with id 2. -/
def c2RowB : Row :=
  { id := 2, path := "/lib/b.ssce", filename := "b.ssce", thumbnail := none,
    title := some "Beta", summary := none, keywords := none,
    modified := some "2024-02-01", last_opened := none, snapshot_count := 0 }

/-- A reachable store: row 1 then row 2 inserted, so the connection's
`last_insert_rowid` is 2. -/
def c2Db : DB :=
  { rows := [sampleRow, c2RowB], fts := [ftsProj sampleRow, ftsProj c2RowB],
    lastInsertRowid := 2 }

/-- An upsert record whose path collides with row 1. -/
def c2File : LibraryFile :=
  { id := none, path := "/lib/a.ssce", filename := "a.ssce", thumbnail := none,
    title := some "Alpha updated", summary := none, keywords := none,
    modified := some "2024-06-01", last_opened := some "2024-06-01",
    snapshot_count := 0 }

/-- A sample envelope carrying a front-matter `modified` value. -/
def c3Json : JsonVal :=
  JsonVal.obj [("frontMatter", JsonVal.obj [("modified", JsonVal.str "2024-04-01")])]

/-- A row found by the prefix-search example of the spec. -/
def quartRow : Row :=
  { id := 1, path := "/lib/q.ssce", filename := "q.ssce", thumbnail := none,
    title := some "Quarterly Report", summary := none, keywords := none,
    modified := some "2024-01-15", last_opened := none, snapshot_count := 0 }

/-- A store holding only `quartRow` and its shadow entry. -/
def quartDb : DB :=
  { rows := [quartRow], fts := [ftsProj quartRow], lastInsertRowid := 1 }

/-- Search parameters exercising a from-date filter and a limit. -/
def c6Params : SearchParams :=
  { query := none, from_date := some "2024-01-01", to_date := none, limit := some 10 }

/-! ## Claim C7 -/

/-- An envelope whose keyword list is present but empty. -/
def c7Json : JsonVal := JsonVal.obj [("keywords", JsonVal.arr [])]

/-! ## Claim C8

Success and failure structure of the reconciliation walk. -/

/-- Whether every `.ssce` file in a directory list reads and parses. -/
def scanOk : List FSEntry → Bool
  | [] => true
  | FSEntry.dir _ children :: rest => scanOk children && scanOk rest
  | FSEntry.file _ isSsce content :: rest =>
    (if isSsce then
      (match content with
       | Except.ok _ => true
       | Except.error _ => false)
     else true) && scanOk rest

/-- The number of `.ssce` files in a directory list. -/
def ssceCount : List FSEntry → Nat
  | [] => 0
  | FSEntry.dir _ children :: rest => ssceCount children + ssceCount rest
  | FSEntry.file _ isSsce _ :: rest => (if isSsce then 1 else 0) + ssceCount rest

/-- The full paths of the `.ssce` files in a directory list. -/
def sscePaths : String → List FSEntry → List String
  | _, [] => []
  | base, FSEntry.dir name children :: rest =>
    sscePaths (base ++ "/" ++ name) children ++ sscePaths base rest
  | base, FSEntry.file name isSsce _ :: rest =>
    (if isSsce then [base ++ "/" ++ name] else []) ++ sscePaths base rest

/-- A filesystem whose root is missing. -/
def noRootFs : FS :=
  { rootPath := "/lib", rootExists := false, root := [], extraFiles := [] }

/-- A well-formed document entry. -/
def c8Good : FSEntry :=
  FSEntry.file "g.ssce" true (Except.ok (JsonVal.obj
    [("frontMatter", JsonVal.obj [("modified", JsonVal.str "2024-01-01")])]))

/-- The single row stored by the first rebuild run of the C9 witness. -/
def c9Row : Row :=
  { id := 1, path := "/lib/a.ssce", filename := "a.ssce", thumbnail := none,
    title := some "Alpha", summary := none, keywords := none,
    modified := some "2024-01-01", last_opened := some "2024-01-01",
    snapshot_count := 0 }

/-- The store after the first rebuild run of the C9 witness. -/
def c9Db1 : DB := { rows := [c9Row], fts := [ftsProj c9Row], lastInsertRowid := 1 }

/-- A sample envelope with front matter but no `modified` field. -/
def c10Json : JsonVal :=
  JsonVal.obj [("frontMatter", JsonVal.obj [("title", JsonVal.str "Untimed")])]

/-! ## Theorems -/

theorem charListLe_total (a b : List Char) :
    charListLe a b = true ∨ charListLe b a = true := by
  induction a generalizing b with
  | nil => left; rfl
  | cons x xs ih =>
    cases b with
    | nil => right; rfl
    | cons y ys =>
      by_cases hxy : x.toNat < y.toNat
      · left; simp [charListLe, hxy]
      · by_cases hyx : y.toNat < x.toNat
        · right; simp [charListLe, hyx]
        · rcases ih ys with h | h
          · left; simp [charListLe, hxy, hyx, h]
          · right; simp [charListLe, hxy, hyx, h]

theorem charListLe_trans {a b c : List Char}
    (hab : charListLe a b = true) (hbc : charListLe b c = true) :
    charListLe a c = true := by
  induction a generalizing b c with
  | nil => rfl
  | cons x xs ih =>
    cases b with
    | nil => simp [charListLe] at hab
    | cons y ys =>
      cases c with
      | nil => simp [charListLe] at hbc
      | cons z zs =>
        simp only [charListLe] at hab hbc ⊢
        by_cases hxy : x.toNat < y.toNat
        · by_cases hyz : y.toNat < z.toNat
          · simp [Nat.lt_trans hxy hyz]
          · by_cases hzy : z.toNat < y.toNat
            · simp [hyz, hzy] at hbc
            · have hyz' : y.toNat = z.toNat := Nat.le_antisymm (Nat.le_of_not_lt hzy) (Nat.le_of_not_lt hyz)
              simp [hyz' ▸ hxy]
        · by_cases hyx : y.toNat < x.toNat
          · simp [hxy, hyx] at hab
          · have hxy' : x.toNat = y.toNat := Nat.le_antisymm (Nat.le_of_not_lt hyx) (Nat.le_of_not_lt hxy)
            simp only [hxy, hyx, if_neg, ite_false, if_false] at hab
            by_cases hyz : y.toNat < z.toNat
            · simp [hxy' ▸ hyz]
            · by_cases hzy : z.toNat < y.toNat
              · simp [hyz, hzy] at hbc
              · simp only [hyz, hzy, if_neg, ite_false, if_false] at hbc
                simp [hxy' ▸ hyz, hxy' ▸ hzy, ih hab hbc]

theorem perm_insertSorted (le : α → α → Bool) (a : α) (l : List α) :
    List.Perm (insertSorted le a l) (a :: l) := by
  induction l with
  | nil => exact List.Perm.refl _
  | cons b bs ih =>
    by_cases h : le a b
    · simp [insertSorted, h]
    · simp only [insertSorted, h, if_false, ite_false]
      exact (ih.cons b).trans (List.Perm.swap a b bs)

theorem perm_sortBy (le : α → α → Bool) (l : List α) :
    List.Perm (sortBy le l) l := by
  induction l with
  | nil => exact List.Perm.refl _
  | cons a as ih =>
    exact (perm_insertSorted le a (sortBy le as)).trans (ih.cons a)

theorem mem_sortBy {le : α → α → Bool} {l : List α} {x : α} :
    x ∈ sortBy le l ↔ x ∈ l :=
  (perm_sortBy le l).mem_iff

theorem pairwise_insertSorted (le : α → α → Bool)
    (htot : ∀ a b, le a b = true ∨ le b a = true)
    (htrans : ∀ a b c, le a b = true → le b c = true → le a c = true)
    (a : α) (l : List α) (h : List.Pairwise (fun x y => le x y = true) l) :
    List.Pairwise (fun x y => le x y = true) (insertSorted le a l) := by
  induction l with
  | nil => simp [insertSorted]
  | cons b bs ih =>
    by_cases hab : le a b
    · simp only [insertSorted, hab, ite_true]
      refine List.Pairwise.cons ?_ h
      intro y hy
      rcases List.mem_cons.mp hy with hy | hy
      · exact hy ▸ hab
      · exact htrans a b y hab (List.rel_of_pairwise_cons h hy)
    · simp only [insertSorted, hab, ite_false]
      refine List.Pairwise.cons ?_ (ih (List.Pairwise.sublist (List.sublist_cons_self b bs) h))
      intro y hy
      rcases List.mem_cons.mp ((perm_insertSorted le a bs).mem_iff.mp hy) with hy | hy
      · rcases htot a b with h' | h'
        · exact absurd h' (by simp [hab])
        · exact hy ▸ h'
      · exact List.rel_of_pairwise_cons h hy

theorem pairwise_sortBy (le : α → α → Bool)
    (htot : ∀ a b, le a b = true ∨ le b a = true)
    (htrans : ∀ a b c, le a b = true → le b c = true → le a c = true)
    (l : List α) :
    List.Pairwise (fun x y => le x y = true) (sortBy le l) := by
  induction l with
  | nil => exact List.Pairwise.nil
  | cons a as ih => exact pairwise_insertSorted le htot htrans a (sortBy le as) ih

theorem data_joinSpace (ws : List String) :
    (joinSpace ws).data = joinSpaceCL (ws.map String.data) := by
  induction ws with
  | nil => rfl
  | cons w ws ih =>
    cases ws with
    | nil => rfl
    | cons x xs =>
      simp only [joinSpace, joinSpaceCL, List.map_cons, String.data_append, ih]
      rw [List.append_assoc]
      rfl

theorem wordsByAux_nonsep {sep : Char → Bool} (w : List Char)
    (hw : ∀ c ∈ w, sep c = false) (cs acc : List Char) :
    wordsByAux sep (w ++ cs) acc = wordsByAux sep cs (w.reverse ++ acc) := by
  induction w generalizing acc with
  | nil => simp
  | cons c w ih =>
    have hc : sep c = false := hw c (List.mem_cons_self c w)
    have hw' : ∀ d ∈ w, sep d = false := fun d hd => hw d (List.mem_cons_of_mem c hd)
    simp only [List.cons_append, wordsByAux, hc, Bool.false_eq_true, if_false, ite_false]
    have hacc : (c :: w).reverse ++ acc = w.reverse ++ (c :: acc) := by simp
    rw [hacc]
    exact ih hw' (c :: acc)

theorem wordsByAux_output {sep : Char → Bool} (cs : List Char) :
    ∀ acc : List Char, (∀ c ∈ acc, sep c = false) →
    ∀ w ∈ wordsByAux sep cs acc, w ≠ [] ∧ ∀ c ∈ w, sep c = false := by
  induction cs with
  | nil =>
    intro acc hacc w hw
    cases acc with
    | nil => simp [wordsByAux] at hw
    | cons a as =>
      simp only [wordsByAux, List.mem_singleton] at hw
      subst hw
      refine ⟨by simp, ?_⟩
      intro c hc
      exact hacc c (List.mem_reverse.mp hc)
  | cons c cs ih =>
    intro acc hacc w hw
    by_cases hc : sep c
    · cases acc with
      | nil =>
        simp only [wordsByAux, hc, if_true, ite_true] at hw
        exact ih [] (by simp) w hw
      | cons a as =>
        simp only [wordsByAux, hc, if_true, ite_true, List.mem_cons] at hw
        rcases hw with hw | hw
        · subst hw
          refine ⟨by simp, ?_⟩
          intro d hd
          exact hacc d (List.mem_reverse.mp hd)
        · exact ih [] (by simp) w hw
    · simp only [wordsByAux, hc, Bool.false_eq_true, if_false, ite_false] at hw
      refine ih (c :: acc) ?_ w hw
      intro d hd
      rcases List.mem_cons.mp hd with hd | hd
      · exact hd ▸ (by simpa using hc)
      · exact hacc d hd

theorem wordsBy_output {sep : Char → Bool} (cs : List Char) :
    ∀ w ∈ wordsBy sep cs, w ≠ [] ∧ ∀ c ∈ w, sep c = false :=
  wordsByAux_output cs [] (by simp)

theorem wordsBy_joinSpaceCL {sep : Char → Bool} (hsp : sep ' ' = true)
    (ws : List (List Char)) (h : ∀ w ∈ ws, w ≠ [] ∧ ∀ c ∈ w, sep c = false) :
    wordsBy sep (joinSpaceCL ws) = ws := by
  induction ws with
  | nil => rfl
  | cons w ws ih =>
    have hw := h w (List.mem_cons_self w ws)
    cases ws with
    | nil =>
      have h1 : wordsByAux sep (w ++ []) [] = wordsByAux sep [] (w.reverse ++ []) :=
        wordsByAux_nonsep w hw.2 [] []
      simp only [List.append_nil] at h1
      show wordsByAux sep w [] = [w]
      rw [h1]
      cases hrev : w.reverse with
      | nil => exact absurd (by simpa using hrev) hw.1
      | cons a as =>
        show [(a :: as).reverse] = [w]
        rw [← hrev, List.reverse_reverse]
    | cons x xs =>
      have h' : ∀ v ∈ x :: xs, v ≠ [] ∧ ∀ c ∈ v, sep c = false :=
        fun v hv => h v (List.mem_cons_of_mem w hv)
      show wordsByAux sep (w ++ ' ' :: joinSpaceCL (x :: xs)) [] = w :: x :: xs
      rw [wordsByAux_nonsep w hw.2, List.append_nil]
      cases hrev : w.reverse with
      | nil => exact absurd (by simpa using hrev) hw.1
      | cons a as =>
        simp only [wordsByAux, hsp, if_true, ite_true]
        rw [← hrev, List.reverse_reverse]
        exact congrArg (w :: ·) (ih h')

theorem id_le_maxId {rows : List Row} {r : Row} (h : r ∈ rows) :
    r.id ≤ maxId rows := by
  induction rows with
  | nil => cases h
  | cons x xs ih =>
    rcases List.mem_cons.mp h with h | h
    · subst h
      exact Nat.le_max_left _ _
    · exact Nat.le_trans (ih h) (Nat.le_max_right _ _)

theorem wf_bulkUpdate {db : DB} (h : wf db) (p : String) (upd : Row → Row)
    (hid : ∀ r, (upd r).id = r.id) (hpath : ∀ r, (upd r).path = r.path) :
    wf (bulkUpdate db p upd) := by
  obtain ⟨hpaths, hids, hperm⟩ := h
  have hgid : ∀ r : Row, (if r.path == p then upd r else r).id = r.id := by
    intro r
    by_cases hr : r.path == p <;> simp [hr, hid]
  have hgpath : ∀ r : Row, (if r.path == p then upd r else r).path = r.path := by
    intro r
    by_cases hr : r.path == p <;> simp [hr, hpath]
  have hkey : ∀ r ∈ db.rows,
      (db.rows.filter (fun x => x.path == p)).any (fun x => x.id == r.id) = (r.path == p) := by
    intro r hr
    by_cases hp : (r.path == p) = true
    · rw [hp]
      exact List.any_eq_true.mpr ⟨r, List.mem_filter.mpr ⟨hr, hp⟩, by simp⟩
    · rw [Bool.eq_false_iff.mpr hp]
      apply Bool.eq_false_iff.mpr
      intro hany
      obtain ⟨r', hr', hid'⟩ := List.any_eq_true.mp hany
      obtain ⟨hr'mem, hr'p⟩ := List.mem_filter.mp hr'
      have : r' = r :=
        List.inj_on_of_nodup_map hids hr'mem hr (by simpa using hid')
      exact hp (this ▸ hr'p)
  refine ⟨?_, ?_, ?_⟩
  · have : (db.rows.map (fun r => if r.path == p then upd r else r)).map Row.path
        = db.rows.map Row.path := by
      rw [List.map_map]
      exact List.map_congr_left (fun r _ => hgpath r)
    show ((db.rows.map (fun r => if r.path == p then upd r else r)).map Row.path).Nodup
    rw [this]
    exact hpaths
  · have : (db.rows.map (fun r => if r.path == p then upd r else r)).map Row.id
        = db.rows.map Row.id := by
      rw [List.map_map]
      exact List.map_congr_left (fun r _ => hgid r)
    show ((db.rows.map (fun r => if r.path == p then upd r else r)).map Row.id).Nodup
    rw [this]
    exact hids
  · show List.Perm
      (db.fts.filter _ ++ (db.rows.filter (fun x => x.path == p)).map _)
      ((db.rows.map (fun r => if r.path == p then upd r else r)).map ftsProj)
    have h1 := hperm.filter
      (fun e => !((db.rows.filter (fun x => x.path == p)).any (fun x => x.id == e.rowid)))
    have h2 : (db.rows.map ftsProj).filter
        (fun e => !((db.rows.filter (fun x => x.path == p)).any (fun x => x.id == e.rowid)))
        = (db.rows.filter (fun r => !(r.path == p))).map ftsProj := by
      rw [List.filter_map]
      congr 1
      apply List.filter_congr
      intro r hr
      show (!((db.rows.filter (fun x => x.path == p)).any (fun x => x.id == (ftsProj r).rowid)))
          = (!(r.path == p))
      have hx : (ftsProj r).rowid = r.id := rfl
      rw [hx, hkey r hr]
    have h3 : (db.rows.map (fun r => if r.path == p then upd r else r)).map ftsProj
        = db.rows.map (fun r => ftsProj (if r.path == p then upd r else r)) := by
      rw [List.map_map]
      rfl
    have hsplit := List.filter_append_perm (fun r => r.path == p) db.rows
    have h4 : List.Perm
        ((db.rows.filter (fun r => r.path == p)
          ++ db.rows.filter (fun r => !(r.path == p))).map
            (fun r => ftsProj (if r.path == p then upd r else r)))
        (db.rows.map (fun r => ftsProj (if r.path == p then upd r else r))) :=
      hsplit.map _
    have h5 : (db.rows.filter (fun r => r.path == p)).map
        (fun r => ftsProj (if r.path == p then upd r else r))
        = (db.rows.filter (fun r => r.path == p)).map (fun r => ftsProj (upd r)) := by
      apply List.map_congr_left
      intro r hr
      simp [(List.mem_filter.mp hr).2]
    have h6 : (db.rows.filter (fun r => !(r.path == p))).map
        (fun r => ftsProj (if r.path == p then upd r else r))
        = (db.rows.filter (fun r => !(r.path == p))).map ftsProj := by
      apply List.map_congr_left
      intro r hr
      have hrp := (List.mem_filter.mp hr).2
      have hq : (r.path == p) = false := by
        cases hq : (r.path == p) <;> simp [hq] at hrp ⊢
      rw [hq]
      simp
    have hA : List.Perm
        (db.fts.filter (fun e =>
          !((db.rows.filter (fun x => x.path == p)).any (fun x => x.id == e.rowid))))
        ((db.rows.filter (fun r => !(r.path == p))).map ftsProj) :=
      h1.trans (by rw [h2])
    refine List.Perm.trans (List.Perm.append hA (List.Perm.refl
      ((db.rows.filter (fun x => x.path == p)).map (fun r => ftsProj (upd r))))) ?_
    refine List.Perm.trans List.perm_append_comm ?_
    rw [h3, ← h5, ← h6, ← List.map_append]
    exact h4

theorem wf_insertRow {db : DB} (h : wf db) (mk : Nat → Row)
    (hid : ∀ i, (mk i).id = i)
    (hfresh : ∀ i, (mk i).path ∉ db.rows.map Row.path) :
    wf (insertRow db mk) := by
  obtain ⟨hpaths, hids, hperm⟩ := h
  have hnew : maxId db.rows + 1 ∉ db.rows.map Row.id := by
    intro hmem
    obtain ⟨r, hr, hr'⟩ := List.mem_map.mp hmem
    have := id_le_maxId hr
    omega
  refine ⟨?_, ?_, ?_⟩
  · show ((db.rows ++ [mk (maxId db.rows + 1)]).map Row.path).Nodup
    rw [List.map_append]
    refine List.Nodup.append hpaths (by simp) ?_
    intro x hx hy
    simp only [List.map_cons, List.map_nil, List.mem_singleton] at hy
    exact hfresh (maxId db.rows + 1) (hy ▸ hx)
  · show ((db.rows ++ [mk (maxId db.rows + 1)]).map Row.id).Nodup
    rw [List.map_append]
    refine List.Nodup.append hids (by simp) ?_
    intro x hx hy
    simp only [List.map_cons, List.map_nil, List.mem_singleton, hid] at hy
    exact hnew (hy ▸ hx)
  · show List.Perm (db.fts ++ [ftsProj (mk (maxId db.rows + 1))])
      ((db.rows ++ [mk (maxId db.rows + 1)]).map ftsProj)
    rw [List.map_append]
    exact List.Perm.append hperm (List.Perm.refl _)

theorem wf_bulkDelete {db : DB} (h : wf db) (cond : Row → Bool) :
    wf (bulkDelete db cond) := by
  obtain ⟨hpaths, hids, hperm⟩ := h
  have hkey : ∀ r ∈ db.rows,
      (db.rows.filter cond).any (fun x => x.id == r.id) = cond r := by
    intro r hr
    by_cases hp : cond r = true
    · rw [hp]
      exact List.any_eq_true.mpr ⟨r, List.mem_filter.mpr ⟨hr, hp⟩, by simp⟩
    · rw [Bool.eq_false_iff.mpr hp]
      apply Bool.eq_false_iff.mpr
      intro hany
      obtain ⟨r', hr', hid'⟩ := List.any_eq_true.mp hany
      obtain ⟨hr'mem, hr'p⟩ := List.mem_filter.mp hr'
      have : r' = r :=
        List.inj_on_of_nodup_map hids hr'mem hr (by simpa using hid')
      exact hp (this ▸ hr'p)
  refine ⟨?_, ?_, ?_⟩
  · show ((db.rows.filter (fun r => !(cond r))).map Row.path).Nodup
    have : List.Sublist (db.rows.filter (fun r => !(cond r))) db.rows :=
      List.filter_sublist db.rows
    exact List.Nodup.sublist (this.map Row.path) hpaths
  · show ((db.rows.filter (fun r => !(cond r))).map Row.id).Nodup
    have : List.Sublist (db.rows.filter (fun r => !(cond r))) db.rows :=
      List.filter_sublist db.rows
    exact List.Nodup.sublist (this.map Row.id) hids
  · show List.Perm (db.fts.filter _)
      ((db.rows.filter (fun r => !(cond r))).map ftsProj)
    have h1 := hperm.filter
      (fun e => !((db.rows.filter cond).any (fun x => x.id == e.rowid)))
    have h2 : (db.rows.map ftsProj).filter
        (fun e => !((db.rows.filter cond).any (fun x => x.id == e.rowid)))
        = (db.rows.filter (fun r => !(cond r))).map ftsProj := by
      rw [List.filter_map]
      congr 1
      apply List.filter_congr
      intro r hr
      show (!((db.rows.filter cond).any (fun x => x.id == (ftsProj r).rowid))) = (!(cond r))
      have hx : (ftsProj r).rowid = r.id := rfl
      rw [hx, hkey r hr]
    exact h1.trans (by rw [h2])

theorem wf_db_upsert_file {db : DB} (h : wf db) (file : LibraryFile) :
    wf (db_upsert_file db file).1 := by
  show wf (if db.rows.any (fun r => r.path == file.path) then _ else _)
  by_cases hc : db.rows.any (fun r => r.path == file.path)
  · rw [if_pos hc]
    exact wf_bulkUpdate h file.path (upsertFields file) (fun r => rfl) (fun r => rfl)
  · rw [if_neg hc]
    refine wf_insertRow h _ (fun i => rfl) ?_
    intro i hmem
    obtain ⟨r, hr, hrp⟩ := List.mem_map.mp hmem
    exact hc (List.any_eq_true.mpr ⟨r, hr, by simp [hrp]⟩)

theorem wf_db_remove_file {db : DB} (h : wf db) (p : String) :
    wf (db_remove_file db p) :=
  wf_bulkDelete h _

theorem wf_db_update_last_opened {db : DB} (h : wf db) (p ts : String) :
    wf (db_update_last_opened db p ts) :=
  wf_bulkUpdate h p _ (fun _ => rfl) (fun _ => rfl)

theorem wf_rebuildUpsertRow {db : DB} (h : wf db) (rec : ScanRecord) :
    wf (rebuildUpsertRow db rec) := by
  unfold rebuildUpsertRow
  by_cases hc : db.rows.any (fun r => r.path == rec.path)
  · rw [if_pos hc]
    exact wf_bulkUpdate h rec.path _ (fun r => rfl) (fun r => rfl)
  · rw [if_neg hc]
    refine wf_insertRow h _ (fun i => rfl) ?_
    intro i hmem
    obtain ⟨r, hr, hrp⟩ := List.mem_map.mp hmem
    exact hc (List.any_eq_true.mpr ⟨r, hr, by simp [hrp]⟩)

theorem wf_scan_dir (base : String) (es : List FSEntry) (db : DB) (c : Nat) :
    wf db → wf (scan_dir base es db c).1 := by
  induction base, es, db, c using scan_dir.induct with
  | case1 base db c =>
    intro h
    simpa [scan_dir] using h
  | case2 base name children rest db c db' c' heq ih1 ih2 =>
    intro h
    have h' : wf db' := by
      have := ih1 h
      rw [heq] at this
      exact this
    have := ih2 h'
    simpa [scan_dir, heq] using this
  | case3 base name children rest db c db' e heq ih1 =>
    intro h
    have h' : wf db' := by
      have := ih1 h
      rw [heq] at this
      exact this
    simpa [scan_dir, heq] using h'
  | case4 base name rest db c e =>
    intro h
    simpa [scan_dir] using h
  | case5 base name rest db c json ih =>
    intro h
    have := ih (wf_rebuildUpsertRow h _)
    simpa [scan_dir] using this
  | case6 base name isSsce content rest db c hssce ih =>
    intro h
    have hf : isSsce = false := by simpa using hssce
    subst hf
    have heq : scan_dir base (FSEntry.file name false content :: rest) db c
        = scan_dir base rest db c := by
      conv_lhs => rw [scan_dir.eq_def]
      rfl
    rw [heq]
    exact ih h

theorem wf_foldl_deleteById (L : List Nat) :
    ∀ {db : DB}, wf db → wf (L.foldl (fun d i => deleteById d i) db) := by
  induction L with
  | nil => intro db h; exact h
  | cons x xs ih =>
    intro db h
    exact ih (wf_bulkDelete h _)

theorem wf_db_rebuild_from_library (fs : FS) {db : DB} (h : wf db) :
    wf (db_rebuild_from_library fs db).1 := by
  unfold db_rebuild_from_library
  by_cases hroot : fs.rootExists
  · rcases hscan : scan_dir fs.rootPath fs.root db 0 with ⟨db', res⟩
    have hdb' : wf db' := by
      have := wf_scan_dir fs.rootPath fs.root db 0 h
      rw [hscan] at this
      exact this
    cases res with
    | error e =>
      simp only [hroot, Bool.not_true, Bool.false_eq_true, if_false, ite_false, hscan]
      exact hdb'
    | ok count =>
      simp only [hroot, Bool.not_true, Bool.false_eq_true, if_false, ite_false, hscan]
      exact wf_foldl_deleteById _ hdb'
  · have hroot' : fs.rootExists = false := Bool.eq_false_iff.mpr hroot
    simp only [hroot', Bool.not_false, if_true, ite_true]
    exact h

/-! ## Claim C1 -/

/-- C1: in every well-formed store there is exactly one row per path and the
shadow index is exactly the id-keyed projection of the rows (one entry per
row, fields equal); this invariant holds of the freshly initialized store and
is preserved by upsert, delete, touch, the reconciliation per-file upsert,
and a whole reconciliation run including its prune pass. -/
theorem c1_store_shadow_invariant (db : DB) (h : wf db) (file : LibraryFile)
    (p ts : String) (rec : ScanRecord) (fs : FS) :
    wf emptyDB ∧
    wf (db_upsert_file db file).1 ∧
    wf (db_remove_file db p) ∧
    wf (db_update_last_opened db p ts) ∧
    wf (rebuildUpsertRow db rec) ∧
    wf (db_rebuild_from_library fs db).1 :=
  ⟨by decide, wf_db_upsert_file h file, wf_db_remove_file h p,
   wf_db_update_last_opened h p ts, wf_rebuildUpsertRow h rec,
   wf_db_rebuild_from_library fs h⟩

/-- Witness for C1 at a concrete store, record and filesystem. -/
theorem c1_store_shadow_invariant_witness :
    wf emptyDB ∧
    wf (db_upsert_file sampleDb sampleFile).1 ∧
    wf (db_remove_file sampleDb "/lib/a.ssce") ∧
    wf (db_update_last_opened sampleDb "/lib/a.ssce" "2024-05-01") ∧
    wf (rebuildUpsertRow sampleDb sampleRec) ∧
    wf (db_rebuild_from_library sampleFs sampleDb).1 :=
  c1_store_shadow_invariant sampleDb (by decide) sampleFile
    "/lib/a.ssce" "2024-05-01" sampleRec sampleFs

/-- C2 (code bug): in a well-formed reachable store where the row at the
upserted path has id 1 but the last successful insert on the connection was
row id 2, the conflict-path upsert returns 2 — the stale
`last_insert_rowid` — and not the id 1 of the row it actually updated.  On
the pure-insert path the returned id is the newly assigned one, as claimed. -/
theorem c2_upsert_conflict_returns_stale_rowid :
    wf c2Db ∧
    c2Db.rows.find? (fun r => r.path == c2File.path) = some sampleRow ∧
    sampleRow.id = 1 ∧
    (db_upsert_file c2Db c2File).2 = 2 ∧
    (2 : Nat) ≠ 1 ∧
    (db_upsert_file emptyDB c2File).2 = 1 := by decide

/-! ## Claim C3 -/

theorem find?_map_pathpreserving (g : Row → Row) (hg : ∀ r, (g r).path = r.path)
    (q : String) (l : List Row) :
    (l.map g).find? (fun r => r.path == q) = (l.find? (fun r => r.path == q)).map g := by
  induction l with
  | nil => rfl
  | cons x xs ih =>
    by_cases hx : (x.path == q) = true
    · have hgx : ((g x).path == q) = true := by rw [hg]; exact hx
      rw [List.map_cons,
        List.find?_cons_of_pos (p := fun r : Row => r.path == q) _ hgx,
        List.find?_cons_of_pos (p := fun r : Row => r.path == q) _ hx]
      rfl
    · have hgx : ¬((g x).path == q) = true := by rw [hg]; exact hx
      rw [List.map_cons,
        List.find?_cons_of_neg (p := fun r : Row => r.path == q) _ hgx,
        List.find?_cons_of_neg (p := fun r : Row => r.path == q) _ hx, ih]

/-- The rows of a `bulkUpdate`, looked up by path. -/
theorem find?_bulkUpdate_rows (db : DB) (p : String) (upd : Row → Row)
    (hpath : ∀ r, (upd r).path = r.path) (q : String) :
    (bulkUpdate db p upd).rows.find? (fun r => r.path == q)
      = (db.rows.find? (fun r => r.path == q)).map
          (fun r => if r.path == p then upd r else r) := by
  show (db.rows.map _).find? _ = _
  exact find?_map_pathpreserving _ (fun r => by
    by_cases hr : (r.path == p) = true <;> simp [hr, hpath]) q db.rows

/-- The rows of an `insertRow`, looked up by path. -/
theorem find?_insertRow_rows (db : DB) (mk : Nat → Row) (q : String) :
    (insertRow db mk).rows.find? (fun r => r.path == q)
      = (db.rows.find? (fun r => r.path == q)).or
          ([mk (maxId db.rows + 1)].find? (fun r => r.path == q)) := by
  show (db.rows ++ [mk (maxId db.rows + 1)]).find? _ = _
  exact List.find?_append

/-- C3: for a scanned document, the reconciliation upsert sets the stored
row's `last_opened` to COALESCE(existing `last_opened`, the document's
extracted `modified`) when a row at that path already exists, and to the
document's `modified` on the first-ever insert of the path. -/
theorem c3_reconciliation_last_opened (db : DB) (json : JsonVal) (p n : String) :
    (∀ old, db.rows.find? (fun r => r.path == p) = some old →
      ∃ r, (rebuildUpsertRow db (scanRecordOf json p n)).rows.find?
          (fun r => r.path == p) = some r ∧
        r.last_opened = old.last_opened.or ((scanRecordOf json p n).modified)) ∧
    (db.rows.find? (fun r => r.path == p) = none →
      ∃ r, (rebuildUpsertRow db (scanRecordOf json p n)).rows.find?
          (fun r => r.path == p) = some r ∧
        r.last_opened = (scanRecordOf json p n).modified) := by
  constructor
  · intro old hold
    have hmem := List.mem_of_find?_eq_some hold
    have holdp := List.find?_some hold
    have hany : db.rows.any (fun r => r.path == (scanRecordOf json p n).path) = true :=
      List.any_eq_true.mpr ⟨old, hmem, holdp⟩
    unfold rebuildUpsertRow
    rw [if_pos hany, find?_bulkUpdate_rows db (scanRecordOf json p n).path
      (rebuildFields (scanRecordOf json p n)) (fun r => rfl) p, hold]
    refine ⟨_, rfl, ?_⟩
    have holdp' : (old.path == (scanRecordOf json p n).path) = true := holdp
    show (if (old.path == (scanRecordOf json p n).path) = true
        then rebuildFields (scanRecordOf json p n) old else old).last_opened
      = old.last_opened.or (scanRecordOf json p n).modified
    rw [if_pos holdp']
    rfl
  · intro hnone
    have hany : db.rows.any (fun r => r.path == (scanRecordOf json p n).path) = false := by
      apply Bool.eq_false_iff.mpr
      intro hany
      obtain ⟨r, hr, hrp⟩ := List.any_eq_true.mp hany
      exact absurd hrp (List.find?_eq_none.mp hnone r hr)
    unfold rebuildUpsertRow
    rw [if_neg (by simp [hany]), find?_insertRow_rows db _ p, hnone, Option.none_or]
    exact ⟨_, List.find?_cons_of_pos _ (beq_self_eq_true p), rfl⟩

/-- Witness for C3: an existing row with NULL `last_opened` gets backfilled
from the document's `modified`; a fresh path is seeded from `modified`. -/
theorem c3_reconciliation_last_opened_witness :
    (∃ r, (rebuildUpsertRow sampleDb (scanRecordOf c3Json "/lib/a.ssce" "a.ssce")).rows.find?
        (fun r => r.path == "/lib/a.ssce") = some r ∧
      r.last_opened = sampleRow.last_opened.or
        ((scanRecordOf c3Json "/lib/a.ssce" "a.ssce").modified)) ∧
    (∃ r, (rebuildUpsertRow emptyDB (scanRecordOf c3Json "/lib/c.ssce" "c.ssce")).rows.find?
        (fun r => r.path == "/lib/c.ssce") = some r ∧
      r.last_opened = (scanRecordOf c3Json "/lib/c.ssce" "c.ssce").modified) :=
  ⟨(c3_reconciliation_last_opened sampleDb c3Json "/lib/a.ssce" "a.ssce").1
      sampleRow (by decide),
   (c3_reconciliation_last_opened emptyDB c3Json "/lib/c.ssce" "c.ssce").2 (by decide)⟩

/-! ## Claim C4 -/

/-- C4: a search whose query is present but consists only of whitespace
returns exactly the same result list as a search with no query, for every
store and every date/limit combination (`query.trim().is_empty()` holds iff
every character is whitespace). -/
theorem c4_blank_query_degrades (db : DB) (q : String)
    (fd td : Option String) (lim : Option Int)
    (h : q.data.all Char.isWhitespace = true) :
    db_search_files db { query := some q, from_date := fd, to_date := td, limit := lim }
      = db_search_files db { query := none, from_date := fd, to_date := td, limit := lim } := by
  unfold db_search_files searchBase
  simp [h]

/-- Witness for C4 at the two-space query. -/
theorem c4_blank_query_degrades_witness :
    ("  ".data.all Char.isWhitespace = true) ∧
    db_search_files sampleDb
        { query := some "  ", from_date := none, to_date := none, limit := none }
      = db_search_files sampleDb
        { query := none, from_date := none, to_date := none, limit := none } :=
  ⟨by decide, c4_blank_query_degrades sampleDb "  " none none none (by decide)⟩

/-! ## Claim C5 -/

theorem tokensOf_map_data (q : String) :
    (tokensOf q).map String.data = wordsBy Char.isWhitespace q.data := by
  unfold tokensOf
  rw [List.map_map]
  have : (String.data ∘ String.mk) = id := rfl
  rw [this, List.map_id]

theorem wordsBy_fts_query (q : String) :
    wordsBy Char.isWhitespace (fts_query_of q).data
      = (tokensOf q).map (fun w => w.data ++ ['*']) := by
  unfold fts_query_of
  rw [data_joinSpace, List.map_map]
  have hmap : (tokensOf q).map (String.data ∘ (fun w => w ++ "*"))
      = (tokensOf q).map (fun w => w.data ++ ['*']) := by
    apply List.map_congr_left
    intro w _
    show (w ++ "*").data = w.data ++ ['*']
    rw [String.data_append]
  rw [hmap]
  apply wordsBy_joinSpaceCL (by decide)
  intro piece hp
  obtain ⟨w, hw, hpw⟩ := List.mem_map.mp hp
  subst hpw
  obtain ⟨cs, hcs, hwcs⟩ := List.mem_map.mp hw
  constructor
  · simp
  · intro c hc
    rcases List.mem_append.mp hc with hc | hc
    · have hdata : w.data = cs := by rw [← hwcs]
      exact (wordsBy_output q.data cs hcs).2 c (hdata ▸ hc)
    · have : c = '*' := by simpa using hc
      subst this
      decide

theorem pieceMatch_star (e : FtsEntry) (w : String) :
    pieceMatch e (w.data ++ ['*']) = tokenPrefixMatch e w := by
  unfold pieceMatch
  rw [show (w.data ++ ['*']).reverse = '*' :: w.data.reverse from by
    rw [List.reverse_append]; rfl]
  show (entryTerms e).any (fun t => isPrefixCL ((w.data.reverse.reverse).map Char.toLower) t)
    = tokenPrefixMatch e w
  rw [List.reverse_reverse]
  rfl

theorem all_map_general (f : α → β) (p : β → Bool) (l : List α) :
    (l.map f).all p = l.all (fun x => p (f x)) := by
  induction l with
  | nil => rfl
  | cons x xs ih => simp [List.all_cons, ih]

theorem all_congr_mem {p q : α → Bool} {l : List α}
    (h : ∀ x ∈ l, p x = q x) : l.all p = l.all q := by
  induction l with
  | nil => rfl
  | cons x xs ih =>
    simp only [List.all_cons, h x (List.mem_cons_self x xs),
      ih (fun y hy => h y (List.mem_cons_of_mem x hy))]

theorem ftsMatchEval_fts_query (e : FtsEntry) (q : String) :
    ftsMatchEval e (fts_query_of q) = (tokensOf q).all (fun w => tokenPrefixMatch e w) := by
  unfold ftsMatchEval
  rw [wordsBy_fts_query, all_map_general]
  exact all_congr_mem (fun w _ => pieceMatch_star e w)

theorem mem_of_mem_applyLimit {l : Int} {xs : List α} {x : α}
    (h : x ∈ applyLimit l xs) : x ∈ xs := by
  unfold applyLimit at h
  by_cases hl : l < 0
  · rwa [if_pos hl] at h
  · rw [if_neg hl] at h
    exact List.mem_of_mem_take h

/-- C5: on the full-text path (non-blank query of plain alphanumeric
tokens), every returned row is backed by a shadow entry with the same id in
which every whitespace token of the query prefix-matches some indexed term,
case-folded — conjunctive AND over tokens, any field; and concretely a
record titled Quarterly Report is returned for the query quart and not for
the query zrep. -/
theorem c5_prefix_and_semantics :
    (∀ (db : DB) (q : String) (fd td : Option String) (lim : Option Int) (r : Row),
      q.data.all Char.isWhitespace = false →
      (∀ w ∈ tokensOf q, w.data.all Char.isAlphanum = true) →
      r ∈ db_search_files db { query := some q, from_date := fd, to_date := td, limit := lim } →
      ∃ e ∈ db.fts, e.rowid = r.id ∧
        ∀ w ∈ tokensOf q, tokenPrefixMatch e w = true) ∧
    (db_search_files quartDb
        { query := some "quart", from_date := none, to_date := none, limit := none }
      = [quartRow] ∧
     db_search_files quartDb
        { query := some "zrep", from_date := none, to_date := none, limit := none }
      = []) := by
  constructor
  · intro db q fd td lim r hq _halnum hr
    unfold db_search_files at hr
    have hr1 := mem_of_mem_applyLimit hr
    have hr2 := mem_sortBy.mp hr1
    have hr3 := (List.mem_filter.mp hr2).1
    unfold searchBase at hr3
    simp only [hq, Bool.false_eq_true, if_false, ite_false] at hr3
    have hcond := (List.mem_filter.mp hr3).2
    obtain ⟨e, he, hecond⟩ := List.any_eq_true.mp hcond
    rw [Bool.and_eq_true] at hecond
    obtain ⟨hid, hmatch⟩ := hecond
    refine ⟨e, he, by simpa using hid, ?_⟩
    rw [ftsMatchEval_fts_query] at hmatch
    exact List.all_eq_true.mp hmatch
  · constructor
    · decide
    · decide

/-- Witness for C5's universal part at the concrete store and query. -/
theorem c5_prefix_and_semantics_witness :
    ∃ e ∈ quartDb.fts, e.rowid = quartRow.id ∧
      ∀ w ∈ tokensOf "quart", tokenPrefixMatch e w = true :=
  (c5_prefix_and_semantics).1 quartDb "quart" none none none quartRow
    (by decide) (by decide) (by decide)

/-! ## Claim C6 -/

theorem descLe_total (a b : Option String) :
    descLe a b = true ∨ descLe b a = true := by
  cases a with
  | none =>
    cases b with
    | none => left; rfl
    | some y => right; rfl
  | some x =>
    cases b with
    | none => left; rfl
    | some y => exact (charListLe_total y.data x.data).imp (fun h => h) (fun h => h)

theorem descLe_trans {a b c : Option String}
    (hab : descLe a b = true) (hbc : descLe b c = true) : descLe a c = true := by
  cases c with
  | none => cases a <;> rfl
  | some z =>
    cases b with
    | none => simp [descLe] at hbc
    | some y =>
      cases a with
      | none => simp [descLe] at hab
      | some x => exact charListLe_trans hbc hab

theorem applyLimit_sublist (l : Int) (xs : List α) :
    List.Sublist (applyLimit l xs) xs := by
  unfold applyLimit
  by_cases hl : l < 0
  · rw [if_pos hl]
  · rw [if_neg hl]
    exact List.take_sublist _ _

theorem length_applyLimit_le {l : Int} (hl : 0 ≤ l) (xs : List α) :
    (applyLimit l xs).length ≤ l.toNat := by
  unfold applyLimit
  rw [if_neg (by omega), List.length_take]
  exact min_le_left _ _

theorem dateOk_of {fd td m : Option String} (h : dateOk fd td m = true) :
    (∀ f, fd = some f → ∃ mm, m = some mm ∧ strLe f mm = true) ∧
    (∀ t, td = some t → ∃ mm, m = some mm ∧ strLe mm t = true) := by
  unfold dateOk at h
  rw [Bool.and_eq_true] at h
  obtain ⟨h1, h2⟩ := h
  constructor
  · intro f hf
    subst hf
    cases m with
    | none => simp at h1
    | some mm => exact ⟨mm, rfl, h1⟩
  · intro t ht
    subst ht
    cases m with
    | none => simp at h2
    | some mm => exact ⟨mm, rfl, h2⟩

/-- C6 counterexample: SQLite treats a negative LIMIT as unbounded, so with
`limit = -1` a one-row store yields one row, whose count is not at most the
requested limit — the claim's universally quantified limit bound fails. -/
theorem c6_negative_limit_counterexample :
    (db_search_files sampleDb
        { query := none, from_date := none, to_date := none, limit := some (-1) }).length = 1 ∧
    ¬(((db_search_files sampleDb
        { query := none, from_date := none, to_date := none, limit := some (-1) }).length : Int)
      ≤ -1) := by decide

/-- C6 (amended): on both paths every returned row satisfies the supplied
date predicates (string comparison, never dropped), the result is ordered
by `modified` descending (NULLs last), and its length is at most `limit`
when the supplied limit is non-negative, and at most the default 50 when no
limit is supplied; a negative limit imposes no bound (SQLite semantics). -/
theorem c6_filters_order_limit (db : DB) (p : SearchParams) :
    (∀ r ∈ db_search_files db p,
      (∀ f, p.from_date = some f → ∃ m, r.modified = some m ∧ strLe f m = true) ∧
      (∀ t, p.to_date = some t → ∃ m, r.modified = some m ∧ strLe m t = true)) ∧
    List.Pairwise (fun a b => descLe a.modified b.modified = true)
      (db_search_files db p) ∧
    (∀ l, p.limit = some l → 0 ≤ l → ((db_search_files db p).length : Int) ≤ l) ∧
    (p.limit = none → (db_search_files db p).length ≤ 50) := by
  refine ⟨?_, ?_, ?_, ?_⟩
  · intro r hr
    have hr1 := mem_of_mem_applyLimit hr
    have hr2 := mem_sortBy.mp hr1
    exact dateOk_of (List.mem_filter.mp hr2).2
  · have hsorted := pairwise_sortBy (fun a b : Row => descLe a.modified b.modified)
      (fun a b => descLe_total a.modified b.modified)
      (fun a b c => descLe_trans)
      ((searchBase db p).filter (fun r => dateOk p.from_date p.to_date r.modified))
    exact List.Pairwise.sublist (applyLimit_sublist _ _) hsorted
  · intro l hl hl0
    unfold db_search_files
    rw [hl]
    simp only [Option.getD_some]
    have := length_applyLimit_le hl0
      (sortBy (fun a b => descLe a.modified b.modified)
        ((searchBase db p).filter (fun r => dateOk p.from_date p.to_date r.modified)))
    omega
  · intro hl
    unfold db_search_files
    rw [hl]
    simp only [Option.getD_none]
    have := length_applyLimit_le (l := 50) (by omega)
      (sortBy (fun a b => descLe a.modified b.modified)
        ((searchBase db p).filter (fun r => dateOk p.from_date p.to_date r.modified)))
    simpa using this

/-- Witness for C6 at a concrete store and parameters. -/
theorem c6_filters_order_limit_witness :
    (∃ m, sampleRow.modified = some m ∧ strLe "2024-01-01" m = true) ∧
    ((db_search_files sampleDb c6Params).length : Int) ≤ 10 :=
  ⟨((c6_filters_order_limit sampleDb c6Params).1 sampleRow (by decide)).1
      "2024-01-01" rfl,
   (c6_filters_order_limit sampleDb c6Params).2.2.1 10 rfl (by omega)⟩

/-- C7 counterexample: scanning a document with `keywords: []` and storing
it yields a row whose keywords field is the empty string, not an absent
field — the claim's empty-list case fails on the code. -/
theorem c7_empty_keywords_counterexample :
    ((rebuildUpsertRow emptyDB (scanRecordOf c7Json "/lib/e.ssce" "e.ssce")).rows.map
        Row.keywords = [some ""]) ∧
    some "" ≠ (none : Option String) := by decide

/-- C7 (amended): the derived keywords field is the single-space join of the
string elements of the document's keyword array when one is present (so an
empty array yields the empty string, not an absent field), and is absent
when the keywords field is missing or not an array; the reconciliation
upsert stores exactly this derived value on a fresh path. -/
theorem c7_keywords_join (db : DB) (json : JsonVal) (p n : String) :
    (json.get "keywords" = none → (scanRecordOf json p n).keywords = none) ∧
    (∀ v, json.get "keywords" = some v → v.as_array = none →
      (scanRecordOf json p n).keywords = none) ∧
    (∀ l, json.get "keywords" = some (JsonVal.arr l) →
      (scanRecordOf json p n).keywords = some (joinSpace (l.filterMap JsonVal.as_str))) ∧
    (json.get "keywords" = some (JsonVal.arr []) →
      (scanRecordOf json p n).keywords = some "") ∧
    (db.rows.find? (fun r => r.path == p) = none →
      ∃ r, (rebuildUpsertRow db (scanRecordOf json p n)).rows.find?
          (fun r => r.path == p) = some r ∧
        r.keywords = (scanRecordOf json p n).keywords) := by
  refine ⟨?_, ?_, ?_, ?_, ?_⟩
  · intro h
    simp [scanRecordOf, h]
  · intro v hv hva
    simp [scanRecordOf, hv, hva]
  · intro l hl
    simp [scanRecordOf, hl, JsonVal.as_array]
  · intro h
    simp [scanRecordOf, h, JsonVal.as_array, joinSpace]
  · intro hnone
    have hany : db.rows.any (fun r => r.path == (scanRecordOf json p n).path) = false := by
      apply Bool.eq_false_iff.mpr
      intro hany
      obtain ⟨r, hr, hrp⟩ := List.any_eq_true.mp hany
      exact absurd hrp (List.find?_eq_none.mp hnone r hr)
    unfold rebuildUpsertRow
    rw [if_neg (by simp [hany]), find?_insertRow_rows db _ p, hnone, Option.none_or]
    exact ⟨_, List.find?_cons_of_pos _ (beq_self_eq_true p), rfl⟩

/-- Witness for C7's amended statement: an absent keywords field stays
absent, an empty array becomes the empty string, and a fresh-path store
keeps the derived value. -/
theorem c7_keywords_join_witness :
    ((scanRecordOf (JsonVal.obj []) "/lib/x.ssce" "x.ssce").keywords = none) ∧
    ((scanRecordOf c7Json "/lib/x.ssce" "x.ssce").keywords = some "") ∧
    (∃ r, (rebuildUpsertRow emptyDB (scanRecordOf c7Json "/lib/x.ssce" "x.ssce")).rows.find?
        (fun r => r.path == "/lib/x.ssce") = some r ∧
      r.keywords = (scanRecordOf c7Json "/lib/x.ssce" "x.ssce").keywords) :=
  ⟨(c7_keywords_join emptyDB (JsonVal.obj []) "/lib/x.ssce" "x.ssce").1 rfl,
   (c7_keywords_join emptyDB c7Json "/lib/x.ssce" "x.ssce").2.2.2.1 rfl,
   (c7_keywords_join emptyDB c7Json "/lib/x.ssce" "x.ssce").2.2.2.2 rfl⟩

theorem scan_dir_ok (base : String) (es : List FSEntry) (db : DB) (c : Nat) :
    scanOk es = true → (scan_dir base es db c).2 = Except.ok (c + ssceCount es) := by
  induction base, es, db, c using scan_dir.induct with
  | case1 base db c =>
    intro _
    simp [scan_dir, ssceCount]
  | case2 base name children rest db c db' c' heq ih1 ih2 =>
    intro h
    simp only [scanOk, Bool.and_eq_true] at h
    have hc' : c' = c + ssceCount children := by
      have h1 := ih1 h.1
      rw [heq] at h1
      simpa using h1
    subst hc'
    simp only [scan_dir, heq]
    rw [ih2 h.2]
    have hcount : ssceCount (FSEntry.dir name children :: rest)
        = ssceCount children + ssceCount rest := by
      simp [ssceCount]
    rw [hcount]
    congr 1
    omega
  | case3 base name children rest db c db' e heq ih1 =>
    intro h
    simp only [scanOk, Bool.and_eq_true] at h
    have h1 := ih1 h.1
    rw [heq] at h1
    simp at h1
  | case4 base name rest db c e =>
    intro h
    simp [scanOk] at h
  | case5 base name rest db c json ih =>
    intro h
    simp [scanOk] at h
    simp only [scan_dir, if_true]
    rw [ih h]
    have hcount : ssceCount (FSEntry.file name true (Except.ok json) :: rest)
        = 1 + ssceCount rest := by
      simp [ssceCount]
    rw [hcount]
    congr 1
    omega
  | case6 base name isSsce content rest db c hssce ih =>
    intro h
    have hf : isSsce = false := by simpa using hssce
    subst hf
    rw [scanOk.eq_def] at h
    simp at h
    have heq : scan_dir base (FSEntry.file name false content :: rest) db c
        = scan_dir base rest db c := by
      conv_lhs => rw [scan_dir.eq_def]
      rfl
    rw [heq, ih h]
    have hcount : ssceCount (FSEntry.file name false content :: rest)
        = ssceCount rest := by
      simp [ssceCount]
    rw [hcount]

theorem scan_dir_error (base : String) (es : List FSEntry) (db : DB) (c : Nat) :
    scanOk es = false → ∃ msg, (scan_dir base es db c).2 = Except.error msg := by
  induction base, es, db, c using scan_dir.induct with
  | case1 base db c =>
    intro h
    simp [scanOk] at h
  | case2 base name children rest db c db' c' heq ih1 ih2 =>
    intro h
    simp only [scanOk] at h
    cases hsc : scanOk children with
    | false =>
      obtain ⟨msg, hmsg⟩ := ih1 hsc
      rw [heq] at hmsg
      simp at hmsg
    | true =>
      rw [hsc, Bool.true_and] at h
      obtain ⟨msg, hmsg⟩ := ih2 h
      refine ⟨msg, ?_⟩
      simpa [scan_dir, heq] using hmsg
  | case3 base name children rest db c db' e heq ih1 =>
    intro _
    refine ⟨e, ?_⟩
    simp [scan_dir, heq]
  | case4 base name rest db c e =>
    intro _
    refine ⟨e, ?_⟩
    simp [scan_dir]
  | case5 base name rest db c json ih =>
    intro h
    simp [scanOk] at h
    obtain ⟨msg, hmsg⟩ := ih h
    refine ⟨msg, ?_⟩
    simpa [scan_dir] using hmsg
  | case6 base name isSsce content rest db c hssce ih =>
    intro h
    have hf : isSsce = false := by simpa using hssce
    subst hf
    rw [scanOk.eq_def] at h
    simp at h
    obtain ⟨msg, hmsg⟩ := ih h
    refine ⟨msg, ?_⟩
    have heq : scan_dir base (FSEntry.file name false content :: rest) db c
        = scan_dir base rest db c := by
      conv_lhs => rw [scan_dir.eq_def]
      rfl
    rw [heq]
    exact hmsg

theorem scan_dir_append (es₁ : List FSEntry) (base : String) (es₂ : List FSEntry)
    (db : DB) (c : Nat) :
    scan_dir base (es₁ ++ es₂) db c =
      match scan_dir base es₁ db c with
      | (db', Except.ok c') => scan_dir base es₂ db' c'
      | (db', Except.error e) => (db', Except.error e) := by
  induction es₁ generalizing db c with
  | nil => simp [scan_dir]
  | cons entry rest ih =>
    cases entry with
    | dir name children =>
      rcases hinner : scan_dir (base ++ "/" ++ name) children db c with ⟨db', res⟩
      cases res with
      | ok c' => simp [scan_dir, hinner, ih]
      | error e => simp [scan_dir, hinner]
    | file name isSsce content =>
      cases isSsce with
      | true =>
        cases content with
        | ok json => simp [scan_dir, ih]
        | error e => simp [scan_dir]
      | false =>
        have heq : ∀ (d : DB) (k : Nat) (tail : List FSEntry),
            scan_dir base (FSEntry.file name false content :: tail) d k
              = scan_dir base tail d k := by
          intro d k tail
          conv_lhs => rw [scan_dir.eq_def]
          rfl
        rw [List.cons_append, heq, heq, ih]

theorem rebuild_snd_ok (fs : FS) (db : DB) (hroot : fs.rootExists = true)
    (hok : scanOk fs.root = true) :
    (db_rebuild_from_library fs db).2 = Except.ok (ssceCount fs.root) := by
  unfold db_rebuild_from_library
  rw [hroot]
  simp only [Bool.not_true, Bool.false_eq_true, if_false, ite_false]
  rcases hscan : scan_dir fs.rootPath fs.root db 0 with ⟨db', res⟩
  have hres : res = Except.ok (0 + ssceCount fs.root) := by
    have := scan_dir_ok fs.rootPath fs.root db 0 hok
    rw [hscan] at this
    exact this
  subst hres
  simp

theorem rebuild_ok_scanOk {fs : FS} {db db' : DB} {n : Nat}
    (hroot : fs.rootExists = true)
    (h : db_rebuild_from_library fs db = (db', Except.ok n)) :
    scanOk fs.root = true := by
  by_contra hbad
  have hf := Bool.eq_false_iff.mpr hbad
  obtain ⟨msg, hmsg⟩ := scan_dir_error fs.rootPath fs.root db 0 hf
  unfold db_rebuild_from_library at h
  rw [hroot] at h
  simp only [Bool.not_true, Bool.false_eq_true, if_false, ite_false] at h
  rcases hscan : scan_dir fs.rootPath fs.root db 0 with ⟨dbx, res⟩
  rw [hscan] at h hmsg
  cases res with
  | error e => simp at h
  | ok c => simp at hmsg

/-- C8: `db_rebuild_from_library` fails when the root does not exist (store
untouched); the first candidate file that fails to read or parse aborts the
run with that file's error while the rows upserted for the earlier
candidates remain in the store (no rollback, later candidates unprocessed);
and a successful run returns the number of `.ssce` files processed, not the
number of rows pruned. -/
theorem c8_rebuild_error_policy :
    (∀ (fs : FS) (db : DB), fs.rootExists = false →
      db_rebuild_from_library fs db
        = (db, Except.error ("Library path does not exist: " ++ fs.rootPath))) ∧
    (∀ (rootPath : String) (extra : List String) (pre rest : List FSEntry)
        (name e : String) (db : DB),
      scanOk pre = true →
      db_rebuild_from_library
          { rootPath := rootPath, rootExists := true,
            root := pre ++ FSEntry.file name true (Except.error e) :: rest,
            extraFiles := extra } db
        = ((scan_dir rootPath pre db 0).1, Except.error e)) ∧
    (∀ (fs : FS) (db : DB), fs.rootExists = true → scanOk fs.root = true →
      (db_rebuild_from_library fs db).2 = Except.ok (ssceCount fs.root)) := by
  refine ⟨?_, ?_, ?_⟩
  · intro fs db h
    unfold db_rebuild_from_library
    rw [h]
    rfl
  · intro rootPath extra pre rest name e db hpre
    unfold db_rebuild_from_library
    simp only [Bool.not_true, Bool.false_eq_true, if_false, ite_false]
    rcases hpre' : scan_dir rootPath pre db 0 with ⟨db₁, res⟩
    have hres : res = Except.ok (0 + ssceCount pre) := by
      have := scan_dir_ok rootPath pre db 0 hpre
      rw [hpre'] at this
      exact this
    subst hres
    rw [scan_dir_append, hpre']
    have hbad : scan_dir rootPath (FSEntry.file name true (Except.error e) :: rest)
        db₁ (0 + ssceCount pre) = (db₁, Except.error e) := by
      simp [scan_dir]
    rw [Nat.zero_add] at hbad
    simp [hbad]
  · intro fs db hroot hok
    exact rebuild_snd_ok fs db hroot hok

/-- Witness for C8: a missing root fails with the descriptive error and an
untouched store; a bad second file aborts with its error and keeps the first
file's upsert; a successful run over one document returns count 1. -/
theorem c8_rebuild_error_policy_witness :
    (db_rebuild_from_library noRootFs emptyDB
      = (emptyDB, Except.error ("Library path does not exist: " ++ noRootFs.rootPath))) ∧
    (db_rebuild_from_library
        { rootPath := "/lib", rootExists := true,
          root := [c8Good] ++ FSEntry.file "bad.ssce" true (Except.error "boom") :: [],
          extraFiles := [] } emptyDB
      = ((scan_dir "/lib" [c8Good] emptyDB 0).1, Except.error "boom")) ∧
    ((db_rebuild_from_library sampleFs sampleDb).2 = Except.ok (ssceCount sampleFs.root)) :=
  ⟨(c8_rebuild_error_policy).1 noRootFs emptyDB rfl,
   (c8_rebuild_error_policy).2.1 "/lib" [] [c8Good] [] "bad.ssce" "boom" emptyDB
     (by simp [scanOk.eq_def, c8Good]),
   (c8_rebuild_error_policy).2.2 sampleFs sampleDb rfl
     (by simp [scanOk.eq_def, sampleFs])⟩

/-! ## Claim C9 -/

theorem mem_path_rebuildUpsertRow (db : DB) (rec : ScanRecord) (q : String) :
    q ∈ (rebuildUpsertRow db rec).rows.map Row.path
      ↔ (q ∈ db.rows.map Row.path ∨ q = rec.path) := by
  unfold rebuildUpsertRow
  by_cases hc : db.rows.any (fun r => r.path == rec.path)
  · rw [if_pos hc]
    have hpaths : (bulkUpdate db rec.path (rebuildFields rec)).rows.map Row.path
        = db.rows.map Row.path := by
      show (db.rows.map _).map Row.path = _
      rw [List.map_map]
      apply List.map_congr_left
      intro r _
      show (if (r.path == rec.path) = true then rebuildFields rec r else r).path = r.path
      by_cases hr : (r.path == rec.path) = true
      · rw [if_pos hr]
        rfl
      · rw [if_neg hr]
    rw [hpaths]
    constructor
    · exact Or.inl
    · rintro (h | rfl)
      · exact h
      · obtain ⟨r, hr, hrp⟩ := List.any_eq_true.mp hc
        exact List.mem_map.mpr ⟨r, hr, by simpa using hrp⟩
  · rw [if_neg hc]
    show q ∈ (db.rows ++ [_]).map Row.path ↔ _
    rw [List.map_append]
    simp [List.mem_append, eq_comm]

theorem mem_path_scan_dir (base : String) (es : List FSEntry) (db : DB) (c : Nat) :
    scanOk es = true → ∀ q : String,
    (q ∈ (scan_dir base es db c).1.rows.map Row.path
      ↔ (q ∈ db.rows.map Row.path ∨ q ∈ sscePaths base es)) := by
  induction base, es, db, c using scan_dir.induct with
  | case1 base db c =>
    intro _ q
    simp [scan_dir, sscePaths]
  | case2 base name children rest db c db' c' heq ih1 ih2 =>
    intro h q
    simp only [scanOk, Bool.and_eq_true] at h
    have h1 := ih1 h.1 q
    rw [heq] at h1
    have h2 := ih2 h.2 q
    simp only [scan_dir, heq]
    rw [h2, h1]
    have hss : sscePaths base (FSEntry.dir name children :: rest)
        = sscePaths (base ++ "/" ++ name) children ++ sscePaths base rest := by
      simp [sscePaths]
    rw [hss]
    simp only [List.mem_append]
    tauto
  | case3 base name children rest db c db' e heq ih1 =>
    intro h q
    simp only [scanOk, Bool.and_eq_true] at h
    have h1 := scan_dir_ok (base ++ "/" ++ name) children db c h.1
    rw [heq] at h1
    simp at h1
  | case4 base name rest db c e =>
    intro h q
    simp [scanOk] at h
  | case5 base name rest db c json ih =>
    intro h q
    simp [scanOk] at h
    have h1 := ih h q
    simp only [scan_dir, if_true]
    rw [h1, mem_path_rebuildUpsertRow]
    have hss : sscePaths base (FSEntry.file name true (Except.ok json) :: rest)
        = (base ++ "/" ++ name) :: sscePaths base rest := by
      rw [sscePaths.eq_def]
      simp
    rw [hss]
    have hrec : (scanRecordOf json (base ++ "/" ++ name) name).path
        = base ++ "/" ++ name := rfl
    rw [hrec]
    simp only [List.mem_cons]
    tauto
  | case6 base name isSsce content rest db c hssce ih =>
    intro h q
    have hf : isSsce = false := by simpa using hssce
    subst hf
    rw [scanOk.eq_def] at h
    simp at h
    have h1 := ih h q
    have heq : scan_dir base (FSEntry.file name false content :: rest) db c
        = scan_dir base rest db c := by
      conv_lhs => rw [scan_dir.eq_def]
      rfl
    rw [heq, h1]
    have hss : sscePaths base (FSEntry.file name false content :: rest)
        = sscePaths base rest := by
      rw [sscePaths.eq_def]
      simp
    rw [hss]

theorem rows_foldl_deleteById (L : List Nat) :
    ∀ db : DB, (L.foldl (fun d i => deleteById d i) db).rows
      = db.rows.filter (fun r => !(L.contains r.id)) := by
  induction L with
  | nil =>
    intro db
    simp
  | cons x xs ih =>
    intro db
    rw [List.foldl_cons, ih]
    rw [show (deleteById db x).rows = db.rows.filter (fun r => !(r.id == x)) from rfl]
    rw [List.filter_filter]
    apply List.filter_congr
    intro r _
    rw [List.contains_cons]
    simp only [Bool.not_or]
    rw [Bool.and_comm]

theorem stale_contains (db' : DB) (hids : (db'.rows.map Row.id).Nodup) (fs : FS)
    (r : Row) (hr : r ∈ db'.rows) :
    ((db'.rows.filter (fun x => !(fs.pathExists x.path))).map Row.id).contains r.id
      = !(fs.pathExists r.path) := by
  by_cases hp : (fs.pathExists r.path) = true
  · rw [hp]
    apply Bool.eq_false_iff.mpr
    intro hcon
    have hmem := List.elem_iff.mp hcon
    obtain ⟨r', hr', hid'⟩ := List.mem_map.mp hmem
    obtain ⟨hr'mem, hr'stale⟩ := List.mem_filter.mp hr'
    have : r' = r := List.inj_on_of_nodup_map hids hr'mem hr hid'
    subst this
    rw [hp] at hr'stale
    simp at hr'stale
  · have hp' : fs.pathExists r.path = false := Bool.eq_false_iff.mpr hp
    rw [hp']
    apply List.elem_iff.mpr
    exact List.mem_map.mpr ⟨r, List.mem_filter.mpr ⟨hr, by rw [hp']; rfl⟩, rfl⟩

theorem mem_sscePaths_fsAllPaths (base : String) (es : List FSEntry) :
    ∀ q ∈ sscePaths base es, q ∈ fsAllPaths base es := by
  induction base, es using sscePaths.induct with
  | case1 base =>
    intro q hq
    simp [sscePaths] at hq
  | case2 base name children rest ih1 ih2 =>
    intro q hq
    have hss : sscePaths base (FSEntry.dir name children :: rest)
        = sscePaths (base ++ "/" ++ name) children ++ sscePaths base rest := by
      simp [sscePaths]
    rw [hss] at hq
    have hall : fsAllPaths base (FSEntry.dir name children :: rest)
        = (base ++ "/" ++ name)
          :: (fsAllPaths (base ++ "/" ++ name) children ++ fsAllPaths base rest) := by
      simp [fsAllPaths]
    rw [hall]
    rcases List.mem_append.mp hq with hq | hq
    · exact List.mem_cons_of_mem _ (List.mem_append.mpr (Or.inl (ih1 q hq)))
    · exact List.mem_cons_of_mem _ (List.mem_append.mpr (Or.inr (ih2 q hq)))
  | case3 base name isSsce content rest ih =>
    intro q hq
    have hss : sscePaths base (FSEntry.file name isSsce content :: rest)
        = (if isSsce then [base ++ "/" ++ name] else []) ++ sscePaths base rest := by
      rw [sscePaths.eq_def]
    have hall : fsAllPaths base (FSEntry.file name isSsce content :: rest)
        = (base ++ "/" ++ name) :: fsAllPaths base rest := by
      rw [fsAllPaths.eq_def]
    rw [hss] at hq
    rw [hall]
    rcases List.mem_append.mp hq with hq | hq
    · by_cases hs : isSsce = true
      · rw [if_pos hs] at hq
        simp only [List.mem_singleton] at hq
        exact hq ▸ List.mem_cons_self _ _
      · rw [if_neg hs] at hq
        simp at hq
    · exact List.mem_cons_of_mem _ (ih q hq)

/-- The stored path set after a successful rebuild: a path survives exactly
when it was previously stored or scanned, and its file still exists. -/
theorem mem_path_rebuild_ok (fs : FS) (db db₂ : DB) (n : Nat) (hwf : wf db)
    (h : db_rebuild_from_library fs db = (db₂, Except.ok n)) (q : String) :
    q ∈ db₂.rows.map Row.path ↔
      ((q ∈ db.rows.map Row.path ∨ q ∈ sscePaths fs.rootPath fs.root)
        ∧ fs.pathExists q = true) := by
  cases hroot : fs.rootExists with
  | false =>
    unfold db_rebuild_from_library at h
    rw [hroot] at h
    simp at h
  | true =>
    have hok : scanOk fs.root = true := rebuild_ok_scanOk hroot h
    unfold db_rebuild_from_library at h
    rw [hroot] at h
    simp only [Bool.not_true, Bool.false_eq_true, if_false, ite_false] at h
    rcases hscan : scan_dir fs.rootPath fs.root db 0 with ⟨db', res⟩
    rw [hscan] at h
    cases res with
    | error e => simp at h
    | ok cnt =>
      rw [Prod.mk.injEq] at h
      obtain ⟨h1, _h2⟩ := h
      have hwf' : wf db' := by
        have := wf_scan_dir fs.rootPath fs.root db 0 hwf
        rw [hscan] at this
        exact this
      have hfst : (scan_dir fs.rootPath fs.root db 0).1 = db' := by rw [hscan]
      have hm := mem_path_scan_dir fs.rootPath fs.root db 0 hok q
      rw [hfst] at hm
      subst h1
      rw [rows_foldl_deleteById]
      constructor
      · intro hq
        obtain ⟨r, hrmem, hrq⟩ := List.mem_map.mp hq
        obtain ⟨hr', hkeep⟩ := List.mem_filter.mp hrmem
        rw [stale_contains db' hwf'.2.1 fs r hr'] at hkeep
        have hex : fs.pathExists r.path = true := by
          cases hpe : fs.pathExists r.path with
          | true => rfl
          | false => rw [hpe] at hkeep; simp at hkeep
        exact ⟨hm.mp (List.mem_map.mpr ⟨r, hr', hrq⟩), hrq ▸ hex⟩
      · rintro ⟨hq, hex⟩
        obtain ⟨r, hr', hrq⟩ := List.mem_map.mp (hm.mpr hq)
        refine List.mem_map.mpr ⟨r, List.mem_filter.mpr ⟨hr', ?_⟩, hrq⟩
        rw [stale_contains db' hwf'.2.1 fs r hr', hrq, hex]
        rfl

/-- C9: rebuilding twice over an unchanged filesystem is idempotent: the
second run also succeeds, returns the same files-processed count, and
leaves the same set of stored paths. -/
theorem c9_rebuild_idempotent (fs : FS) (db db₁ : DB) (n₁ : Nat) (h : wf db)
    (h1 : db_rebuild_from_library fs db = (db₁, Except.ok n₁)) :
    ∃ db₂, db_rebuild_from_library fs db₁ = (db₂, Except.ok n₁) ∧
      ∀ q, (q ∈ db₂.rows.map Row.path ↔ q ∈ db₁.rows.map Row.path) := by
  cases hroot : fs.rootExists with
  | false =>
    unfold db_rebuild_from_library at h1
    rw [hroot] at h1
    simp at h1
  | true =>
    have hok : scanOk fs.root = true := rebuild_ok_scanOk hroot h1
    have hn : n₁ = ssceCount fs.root := by
      have hsnd := congrArg Prod.snd h1
      rw [rebuild_snd_ok fs db hroot hok] at hsnd
      simpa using hsnd.symm
    rcases h2 : db_rebuild_from_library fs db₁ with ⟨db₂, res₂⟩
    have hsnd₂ : Except.ok (ssceCount fs.root) = res₂ := by
      have := congrArg Prod.snd h2
      rw [rebuild_snd_ok fs db₁ hroot hok] at this
      exact this
    have h2' : db_rebuild_from_library fs db₁ = (db₂, Except.ok (ssceCount fs.root)) := by
      rw [h2, ← hsnd₂]
    have hwf₁ : wf db₁ := by
      have := wf_db_rebuild_from_library fs h
      rw [h1] at this
      exact this
    refine ⟨db₂, ?_, ?_⟩
    · rw [hn, hsnd₂]
    intro q
    have hm₂ := mem_path_rebuild_ok fs db₁ db₂ (ssceCount fs.root) hwf₁ h2' q
    have hm₁ := mem_path_rebuild_ok fs db db₁ n₁ h h1 q
    rw [hm₂]
    constructor
    · rintro ⟨hq | hS, hE⟩
      · exact hq
      · exact hm₁.mpr ⟨Or.inr hS, hE⟩
    · intro hq
      have := hm₁.mp hq
      exact ⟨Or.inl hq, this.2⟩

theorem c9_run1_eq :
    db_rebuild_from_library sampleFs emptyDB = (c9Db1, Except.ok 1) := by
  have hscan : scan_dir "/lib" [FSEntry.file "a.ssce" true (Except.ok sampleJson)] emptyDB 0
      = (c9Db1, Except.ok 1) := by
    simp only [scan_dir, if_true]
    rfl
  have hpe : sampleFs.pathExists "/lib/a.ssce" = true := by
    have hall : fsAllPaths sampleFs.rootPath sampleFs.root = ["/lib/a.ssce"] := by
      simp [sampleFs, fsAllPaths]
    unfold FS.pathExists
    rw [hall]
    decide
  have hstale : (c9Db1.rows.filter (fun r => !(sampleFs.pathExists r.path))).map Row.id
      = [] := by
    simp [c9Db1, c9Row, hpe]
  unfold db_rebuild_from_library
  simp only [show sampleFs.rootExists = true from rfl, Bool.not_true, Bool.false_eq_true,
    if_false, ite_false]
  rw [show sampleFs.rootPath = "/lib" from rfl,
    show sampleFs.root = [FSEntry.file "a.ssce" true (Except.ok sampleJson)] from rfl,
    hscan]
  simp [hstale]

/-- Witness for C9: one document under the root, starting from the fresh
store; the first run stores it, the second run returns the same count and
path set. -/
theorem c9_rebuild_idempotent_witness :
    ∃ db₂, db_rebuild_from_library sampleFs c9Db1 = (db₂, Except.ok 1) ∧
      ∀ q, (q ∈ db₂.rows.map Row.path ↔ q ∈ c9Db1.rows.map Row.path) :=
  c9_rebuild_idempotent sampleFs emptyDB c9Db1 1 (by decide) c9_run1_eq

/-! ## Claim C10 -/

/-- C10: a scanned document whose extracted front-matter `modified` is
absent, stored at a path with no prior row, is stored with a NULL
`last_opened`; and `db_get_recent_files` only ever returns rows with a
non-NULL `last_opened`, so such a document does not appear there until a
touch or an upsert supplies a timestamp. -/
theorem c10_missing_modified_recent (db : DB) (json : JsonVal) (p n : String)
    (hmod : (scanRecordOf json p n).modified = none)
    (hfresh : db.rows.find? (fun r => r.path == p) = none) :
    (∃ r, (rebuildUpsertRow db (scanRecordOf json p n)).rows.find?
        (fun r => r.path == p) = some r ∧ r.last_opened = none) ∧
    (∀ (d : DB) (lim : Int) (r : Row), r ∈ db_get_recent_files d lim →
      r.last_opened ≠ none) := by
  constructor
  · have hany : db.rows.any (fun r => r.path == (scanRecordOf json p n).path) = false := by
      apply Bool.eq_false_iff.mpr
      intro hany
      obtain ⟨r, hr, hrp⟩ := List.any_eq_true.mp hany
      exact absurd hrp (List.find?_eq_none.mp hfresh r hr)
    unfold rebuildUpsertRow
    rw [if_neg (by simp [hany]), find?_insertRow_rows db _ p, hfresh, Option.none_or]
    refine ⟨_, List.find?_cons_of_pos _ (beq_self_eq_true p), ?_⟩
    show (scanRecordOf json p n).last_opened = none
    rw [show (scanRecordOf json p n).last_opened = (scanRecordOf json p n).modified from rfl,
      hmod]
  · intro d lim r hr
    unfold db_get_recent_files at hr
    have hr1 := mem_of_mem_applyLimit hr
    have hr2 := mem_sortBy.mp hr1
    have hsome := (List.mem_filter.mp hr2).2
    intro hnone
    rw [hnone] at hsome
    simp at hsome

/-- Witness for C10 at a concrete envelope and the fresh store. -/
theorem c10_missing_modified_recent_witness :
    (∃ r, (rebuildUpsertRow emptyDB (scanRecordOf c10Json "/lib/m.ssce" "m.ssce")).rows.find?
        (fun r => r.path == "/lib/m.ssce") = some r ∧ r.last_opened = none) ∧
    (∀ (d : DB) (lim : Int) (r : Row), r ∈ db_get_recent_files d lim →
      r.last_opened ≠ none) :=
  c10_missing_modified_recent emptyDB c10Json "/lib/m.ssce" "m.ssce" (by decide) (by decide)

end SSCE
